import Mathlib

/-!
Verification of the Intcode virtual-machine core of this repository.

The definitions below are a shallow embedding of the engine in
`src/day09.rs` (the final, fully featured variant: three parameter
modes, relative base, growable memory, suspend/resume input).  Rust
`isize` values are modelled as `Int`; Rust truncating division and
remainder (`/`, `%`) are `Int.tdiv` and `Int.tmod`; the Rust
`panic!`/`assert!` aborts are modelled as `Except.error` with a
`Fault` naming the fault class of the specification.  The fuel
parameter of `Tape.runLoop` makes the possibly diverging `loop` of
`Tape::run` a total function: `none` means the fuel ran out before
the run settled.
-/

deriving instance DecidableEq for Except

/-- Fault classes of the specification: a negative address passed to a
memory access, a fetched word whose low two decimal digits name no
operation, and a parameter-mode digit other than 0, 1, 2.  In
`src/day09.rs` these are the `assert!(pos >= 0)` aborts in `Tape::get`
and `Tape::set` and the two `panic!` arms of the `From<Integer>`
conversions. -/
inductive Fault where
  | AddressFault (pos : Int)
  | InvalidOpCode (value : Int)
  | InvalidParamMode (value : Int)
deriving DecidableEq, Repr

/-- Parameter addressing modes, `enum ParamMode` of `src/day09.rs`. -/
inductive ParamMode where
  | Position
  | Immediate
  | Relative
deriving DecidableEq, Repr

/-- Conversion of a mode digit, `impl From<Integer> for ParamMode` of
`src/day09.rs`: 0, 1, 2 are the three modes, anything else aborts. -/
def ParamMode.ofInt (value : Int) : Except Fault ParamMode :=
  match value with
  | 0 => .ok .Position
  | 1 => .ok .Immediate
  | 2 => .ok .Relative
  | _ => .error (.InvalidParamMode value)

/-- Decoded operations, `enum OpCode` of `src/day09.rs`. -/
inductive OpCode where
  | Add (p1 p2 p3 : ParamMode)
  | Mul (p1 p2 p3 : ParamMode)
  | Input (p1 : ParamMode)
  | Output (p1 : ParamMode)
  | JumpIfTrue (p1 p2 : ParamMode)
  | JumpIfFalse (p1 p2 : ParamMode)
  | LessThan (p1 p2 p3 : ParamMode)
  | Equals (p1 p2 p3 : ParamMode)
  | AdjustRelBase (p1 : ParamMode)
  | Eof
deriving DecidableEq, Repr

/-- Instruction decode, `impl From<Integer> for OpCode` of
`src/day09.rs`.  All three mode digits are extracted and validated
(third first, as in the source) before the low two digits are matched
against the operation table. -/
def OpCode.ofInt (value : Int) : Except Fault OpCode :=
  match ParamMode.ofInt ((value.tdiv 10000).tmod 10) with
  | .error f => .error f
  | .ok param3 =>
    match ParamMode.ofInt ((value.tdiv 1000).tmod 10) with
    | .error f => .error f
    | .ok param2 =>
      match ParamMode.ofInt ((value.tdiv 100).tmod 10) with
      | .error f => .error f
      | .ok param1 =>
        match value.tmod 100 with
        | 1 => .ok (.Add param1 param2 param3)
        | 2 => .ok (.Mul param1 param2 param3)
        | 3 => .ok (.Input param1)
        | 4 => .ok (.Output param1)
        | 5 => .ok (.JumpIfTrue param1 param2)
        | 6 => .ok (.JumpIfFalse param1 param2)
        | 7 => .ok (.LessThan param1 param2 param3)
        | 8 => .ok (.Equals param1 param2 param3)
        | 9 => .ok (.AdjustRelBase param1)
        | 99 => .ok .Eof
        | _ => .error (.InvalidOpCode value)

/-- Run status observable by the caller of `Tape::run`:
`Poll` is the AwaitingInput suspension, `Halt` the terminal state. -/
inductive RunStatus where
  | Poll
  | Halt
deriving DecidableEq, Repr

/-- Machine state, `struct Tape` of `src/day09.rs`: growable memory,
program counter, relative base, and the FIFO output queue (the Rust
`VecDeque` with `push_back` is a list appended at the right end). -/
structure Tape where
  mem : List Int
  pc : Int
  relbase : Int
  output : List Int
deriving DecidableEq, Repr

/-- Zero extension of the store so that index `n` exists: the
`self.mem.resize(new_len, 0)` step shared by `Tape::get` and
`Tape::set` when `pos` is at or beyond the current length. -/
def extendMem (mem : List Int) (n : Nat) : List Int :=
  if n < mem.length then mem else mem ++ List.replicate (n + 1 - mem.length) 0

/-- The `Tape::empty` query of `src/day09.rs`. -/
def Tape.empty (t : Tape) : Bool :=
  t.mem.isEmpty

/-- Memory read, `Tape::get` of `src/day09.rs`: a negative address is
an address fault (the `assert!`), otherwise the store is zero-extended
as needed and the cell is returned. -/
def Tape.get (t : Tape) (pos : Int) : Except Fault (Tape × Int) :=
  if pos < 0 then .error (.AddressFault pos)
  else
    .ok ({ t with mem := extendMem t.mem pos.toNat },
      (extendMem t.mem pos.toNat).getD pos.toNat 0)

/-- Memory write, `Tape::set` of `src/day09.rs`: same fault rule and
zero extension as `Tape.get`, then the cell is overwritten. -/
def Tape.set (t : Tape) (pos : Int) (value : Int) : Except Fault Tape :=
  if pos < 0 then .error (.AddressFault pos)
  else
    .ok { t with mem := (extendMem t.mem pos.toNat).set pos.toNat value }

/-- Read-role parameter fetch, `Tape::pget` of `src/day09.rs`:
Position dereferences twice, Immediate once, Relative adds the
relative base to the cell before dereferencing. -/
def Tape.pget (t : Tape) (pos : Int) (param : ParamMode) : Except Fault (Tape × Int) :=
  match param with
  | .Position =>
    match t.get pos with
    | .error f => .error f
    | .ok (t, p) => t.get p
  | .Immediate => t.get pos
  | .Relative =>
    match t.get pos with
    | .error f => .error f
    | .ok (t, p) => t.get (t.relbase + p)

/-- Write-role target address computation: the `let dst = match param
{ ... }` block repeated verbatim in the Add, Mul, Input, LessThan and
Equals arms of `Tape::run` in `src/day09.rs`.  Position and Immediate
take the cell value as the address; Relative adds the relative base;
the resulting address is never dereferenced. -/
def Tape.dstAddr (t : Tape) (pos : Int) (param : ParamMode) : Except Fault (Tape × Int) :=
  match param with
  | .Position => t.get pos
  | .Immediate => t.get pos
  | .Relative =>
    match t.get pos with
    | .error f => .error f
    | .ok (t, p) => .ok (t, t.relbase + p)

/-- Result of fetching and decoding the word at the program counter.
This is the `let opcode: OpCode = self.get(self.pc).into()` line of
`Tape::run`. -/
def Tape.fetchDecode (t : Tape) : Except Fault (Tape × OpCode) :=
  match t.get t.pc with
  | .error f => .error f
  | .ok (t, w) =>
    match OpCode.ofInt w with
    | .error f => .error f
    | .ok op => .ok (t, op)

/-- Outcome of executing one decoded instruction, with the input
consumption of the Input arm factored out: `next` covers the arms
that finished and advanced (or jumped) the program counter,
`needsInput` is an Input instruction that has computed its target
address and now asks the input iterator for a value, `halted` is the
Eof arm. -/
inductive InstrOut where
  | next (t : Tape)
  | needsInput (dst : Int) (t : Tape)
  | halted (t : Tape)
deriving DecidableEq, Repr

/-- One dispatch of the `match opcode` block of `Tape::run` in
`src/day09.rs`, everything except the `input.next()` consumption of
the Input arm (see `Tape.step` for that part). -/
def Tape.exec (t : Tape) (op : OpCode) : Except Fault InstrOut :=
  match op with
  | .Add p1 p2 p3 =>
    match t.pget (t.pc + 1) p1 with
    | .error f => .error f
    | .ok (t, lhs) =>
      match t.pget (t.pc + 2) p2 with
      | .error f => .error f
      | .ok (t, rhs) =>
        match t.dstAddr (t.pc + 3) p3 with
        | .error f => .error f
        | .ok (t, dst) =>
          match t.set dst (lhs + rhs) with
          | .error f => .error f
          | .ok t => .ok (.next { t with pc := t.pc + 4 })
  | .Mul p1 p2 p3 =>
    match t.pget (t.pc + 1) p1 with
    | .error f => .error f
    | .ok (t, lhs) =>
      match t.pget (t.pc + 2) p2 with
      | .error f => .error f
      | .ok (t, rhs) =>
        match t.dstAddr (t.pc + 3) p3 with
        | .error f => .error f
        | .ok (t, dst) =>
          match t.set dst (lhs * rhs) with
          | .error f => .error f
          | .ok t => .ok (.next { t with pc := t.pc + 4 })
  | .Input p1 =>
    match t.dstAddr (t.pc + 1) p1 with
    | .error f => .error f
    | .ok (t, dst) => .ok (.needsInput dst t)
  | .Output p1 =>
    match t.pget (t.pc + 1) p1 with
    | .error f => .error f
    | .ok (t, src) =>
      .ok (.next { t with output := t.output ++ [src], pc := t.pc + 2 })
  | .JumpIfTrue p1 p2 =>
    match t.pget (t.pc + 1) p1 with
    | .error f => .error f
    | .ok (t, cnd) =>
      match t.pget (t.pc + 2) p2 with
      | .error f => .error f
      | .ok (t, val) =>
        .ok (.next { t with pc := if cnd ≠ 0 then val else t.pc + 3 })
  | .JumpIfFalse p1 p2 =>
    match t.pget (t.pc + 1) p1 with
    | .error f => .error f
    | .ok (t, cnd) =>
      match t.pget (t.pc + 2) p2 with
      | .error f => .error f
      | .ok (t, val) =>
        .ok (.next { t with pc := if cnd = 0 then val else t.pc + 3 })
  | .LessThan p1 p2 p3 =>
    match t.pget (t.pc + 1) p1 with
    | .error f => .error f
    | .ok (t, lhs) =>
      match t.pget (t.pc + 2) p2 with
      | .error f => .error f
      | .ok (t, rhs) =>
        match t.dstAddr (t.pc + 3) p3 with
        | .error f => .error f
        | .ok (t, dst) =>
          match t.set dst (if lhs < rhs then 1 else 0) with
          | .error f => .error f
          | .ok t => .ok (.next { t with pc := t.pc + 4 })
  | .Equals p1 p2 p3 =>
    match t.pget (t.pc + 1) p1 with
    | .error f => .error f
    | .ok (t, lhs) =>
      match t.pget (t.pc + 2) p2 with
      | .error f => .error f
      | .ok (t, rhs) =>
        match t.dstAddr (t.pc + 3) p3 with
        | .error f => .error f
        | .ok (t, dst) =>
          match t.set dst (if lhs = rhs then 1 else 0) with
          | .error f => .error f
          | .ok t => .ok (.next { t with pc := t.pc + 4 })
  | .AdjustRelBase p1 =>
    match t.pget (t.pc + 1) p1 with
    | .error f => .error f
    | .ok (t, adj) =>
      .ok (.next { t with relbase := t.relbase + adj, pc := t.pc + 2 })
  | .Eof => .ok (.halted t)

/-- One iteration of the engine loop, as seen with an explicit input
list: fetch, decode, execute.  `cont` keeps looping, `poll` is the
`return RunStatus::Poll` of the Input arm when the input iterator is
exhausted, `halt` is the `return RunStatus::Halt` of the Eof arm. -/
inductive StepOut where
  | cont (t : Tape) (input : List Int)
  | poll (t : Tape)
  | halt (t : Tape)
deriving DecidableEq, Repr

/-- One full loop iteration of `Tape::run` of `src/day09.rs`,
including the `input.next()` consumption of the Input arm: with a
value available the target cell is written and the program counter
advances by 2; with the input exhausted the engine suspends. -/
def Tape.step (t : Tape) (input : List Int) : Except Fault StepOut :=
  match t.fetchDecode with
  | .error f => .error f
  | .ok (t, op) =>
    match t.exec op with
    | .error f => .error f
    | .ok (.halted t) => .ok (.halt t)
    | .ok (.next t) => .ok (.cont t input)
    | .ok (.needsInput dst t) =>
      match input with
      | [] => .ok (.poll t)
      | value :: rest =>
        match t.set dst value with
        | .error f => .error f
        | .ok t => .ok (.cont { t with pc := t.pc + 2 } rest)

/-- The `loop` of `Tape::run` of `src/day09.rs`, with fuel: the
result carries the final status, the machine state, and the input
values left unconsumed; `none` means the fuel ran out first. -/
def Tape.runLoop : Tape → List Int → Nat → Except Fault (Option (RunStatus × Tape × List Int))
  | _, _, 0 => .ok none
  | t, input, fuel + 1 =>
    match t.step input with
    | .error f => .error f
    | .ok (.halt t) => .ok (some (.Halt, t, input))
    | .ok (.poll t) => .ok (some (.Poll, t, input))
    | .ok (.cont t input) => t.runLoop input fuel

/-- The whole of `Tape::run` of `src/day09.rs`: an empty program
halts immediately before any fetch, otherwise the loop runs. -/
def Tape.run (t : Tape) (input : List Int) (fuel : Nat) :
    Except Fault (Option (RunStatus × Tape × List Int)) :=
  if t.empty then .ok (some (.Halt, t, input)) else t.runLoop input fuel

/-- The `test_tape` helper of the `src/day09.rs` test module: build a
tape from a program, run it, and report the status together with the
drained output queue. -/
def testTape (prog : List Int) (input : List Int) (fuel : Nat) :
    Except Fault (Option (RunStatus × List Int)) :=
  match Tape.run { mem := prog, pc := 0, relbase := 0, output := [] } input fuel with
  | .error f => .error f
  | .ok none => .ok none
  | .ok (some (status, t, _)) => .ok (some (status, t.output))

/-- A state relation used throughout the proofs: `MemExt t u` says
that `u` differs from `t` at most by zero extension of the memory:
same program counter, relative base and output queue, a memory at
least as long, and every cell equal under the default-0 view. -/
def MemExt (t u : Tape) : Prop :=
  u.pc = t.pc ∧ u.relbase = t.relbase ∧ u.output = t.output ∧
    t.mem.length ≤ u.mem.length ∧ ∀ k, u.mem.getD k 0 = t.mem.getD k 0

/-- Modelled from the spec: result of one hand-executed step of the
Add/Mul/Halt fragment of the operation table in section 4.3 of the
specification (a direct hand-computed trace): either the machine
halted with the given memory and program counter, or it advanced to
the given memory and program counter. -/
inductive HandRes where
  | halt (mem : List Int) (pc : Int)
  | next (mem : List Int) (pc : Int)
deriving DecidableEq, Repr

/-- Modelled from the spec: the `read(addr)` contract of section 4.1,
for a hand-computed trace.  A negative address is a fault (`none`);
otherwise the store auto-extends with zeros up to and including
`addr` and the stored value is returned, 0 for a never-written,
newly extended cell. -/
def handRead (mem : List Int) (addr : Int) : Option (List Int × Int) :=
  if addr < 0 then none
  else some (extendMem mem addr.toNat, mem.getD addr.toNat 0)

/-- Modelled from the spec: the `write(addr, value)` contract of
section 4.1, for a hand-computed trace: same fault rule and auto
extension as `handRead`, then the cell is overwritten. -/
def handWrite (mem : List Int) (addr : Int) (value : Int) : Option (List Int) :=
  if addr < 0 then none
  else some ((extendMem mem addr.toNat).set addr.toNat value)

/-- Modelled from the spec: one hand-executed step of a program
consisting solely of Add, Mul and Halt instructions, per the table of
section 4.3 with all parameters in position mode: for word 1,
`mem[c] = read(a) + read(b)` and the counter advances by 4; for word
2 the same with a product; word 99 halts; any other word (or any
fault) leaves the fragment (`none`).  Reads happen left to right, the
instruction word first, each operand cell then its target. -/
def handStep (mem : List Int) (pc : Int) : Option HandRes :=
  match handRead mem pc with
  | none => none
  | some (mem, w) =>
    if w = 1 then
      match handRead mem (pc + 1) with
      | none => none
      | some (mem, apos) =>
        match handRead mem apos with
        | none => none
        | some (mem, a) =>
          match handRead mem (pc + 2) with
          | none => none
          | some (mem, bpos) =>
            match handRead mem bpos with
            | none => none
            | some (mem, b) =>
              match handRead mem (pc + 3) with
              | none => none
              | some (mem, cpos) =>
                match handWrite mem cpos (a + b) with
                | none => none
                | some mem => some (.next mem (pc + 4))
    else if w = 2 then
      match handRead mem (pc + 1) with
      | none => none
      | some (mem, apos) =>
        match handRead mem apos with
        | none => none
        | some (mem, a) =>
          match handRead mem (pc + 2) with
          | none => none
          | some (mem, bpos) =>
            match handRead mem bpos with
            | none => none
            | some (mem, b) =>
              match handRead mem (pc + 3) with
              | none => none
              | some (mem, cpos) =>
                match handWrite mem cpos (a * b) with
                | none => none
                | some mem => some (.next mem (pc + 4))
    else if w = 99 then some (.halt mem pc)
    else none

/-- Modelled from the spec: a full hand-computed trace of an
Add/Mul/Halt program, with fuel: `some (mem, pc)` is the final memory
and counter of a trace that reaches Halt, `none` covers a fault, a
word outside the fragment, or fuel exhaustion. -/
def handRun : List Int → Int → Nat → Option (List Int × Int)
  | _, _, 0 => none
  | mem, pc, fuel + 1 =>
    match handStep mem pc with
    | none => none
    | some (.halt mem pc) => some (mem, pc)
    | some (.next mem pc) => handRun mem pc fuel

/-! ## Memory extension facts -/

theorem length_extendMem (mem : List Int) (n : Nat) :
    (extendMem mem n).length = max mem.length (n + 1) := by
  unfold extendMem
  split
  · omega
  · simp only [List.length_append, List.length_replicate]
    omega

theorem lt_length_extendMem (mem : List Int) (n : Nat) :
    n < (extendMem mem n).length := by
  rw [length_extendMem]; omega

theorem length_le_extendMem (mem : List Int) (n : Nat) :
    mem.length ≤ (extendMem mem n).length := by
  rw [length_extendMem]; omega

theorem extendMem_of_lt {mem : List Int} {n : Nat} (h : n < mem.length) :
    extendMem mem n = mem := by
  unfold extendMem; rw [if_pos h]

theorem getD_extendMem (mem : List Int) (n k : Nat) :
    (extendMem mem n).getD k 0 = mem.getD k 0 := by
  unfold extendMem
  split
  · rfl
  · by_cases hk : k < mem.length
    · rw [List.getD_eq_getElem?_getD, List.getD_eq_getElem?_getD, List.getElem?_append,
        if_pos hk]
    · rw [List.getD_eq_getElem?_getD, List.getD_eq_getElem?_getD,
        List.getElem?_append_right (by omega), List.getElem?_replicate,
        List.getElem?_eq_none (by omega)]
      split <;> rfl

/-! ## Characterizations of the memory accessors -/

theorem Tape.get_neg {t : Tape} {pos : Int} (h : pos < 0) :
    t.get pos = .error (.AddressFault pos) := by
  unfold Tape.get; rw [if_pos h]

theorem Tape.get_eq {t : Tape} {pos : Int} (h : 0 ≤ pos) :
    t.get pos =
      .ok ({ t with mem := extendMem t.mem pos.toNat }, t.mem.getD pos.toNat 0) := by
  unfold Tape.get
  rw [if_neg (by omega), getD_extendMem]

theorem Tape.get_ok_inv {t t1 : Tape} {pos v : Int} (h : t.get pos = .ok (t1, v)) :
    0 ≤ pos ∧ t1 = { t with mem := extendMem t.mem pos.toNat } ∧
      v = t.mem.getD pos.toNat 0 := by
  by_cases hp : pos < 0
  · rw [Tape.get_neg hp] at h; cases h
  · rw [Tape.get_eq (by omega)] at h
    refine ⟨by omega, ?_, ?_⟩
    · injection h with h'
      exact (congrArg Prod.fst h').symm
    · injection h with h'
      exact (congrArg Prod.snd h').symm

theorem Tape.set_neg {t : Tape} {pos v : Int} (h : pos < 0) :
    t.set pos v = .error (.AddressFault pos) := by
  unfold Tape.set; rw [if_pos h]

theorem Tape.set_eq {t : Tape} {pos v : Int} (h : 0 ≤ pos) :
    t.set pos v =
      .ok { t with mem := (extendMem t.mem pos.toNat).set pos.toNat v } := by
  unfold Tape.set
  rw [if_neg (by omega)]

/-! ## Pure zero extension of the machine state

A successful read only zero-extends the memory; every other field is
untouched and every cell keeps its value under the default-0 view.
`MemExt t u` captures that `u` is such an extension of `t`. -/

theorem MemExt.refl (t : Tape) : MemExt t t :=
  ⟨rfl, rfl, rfl, le_refl _, fun _ => rfl⟩

theorem MemExt.trans {a b c : Tape} (h1 : MemExt a b) (h2 : MemExt b c) :
    MemExt a c :=
  ⟨h2.1.trans h1.1, h2.2.1.trans h1.2.1, h2.2.2.1.trans h1.2.2.1,
    h1.2.2.2.1.trans h2.2.2.2.1, fun k => (h2.2.2.2.2 k).trans (h1.2.2.2.2 k)⟩

theorem Tape.get_memExt {t t1 : Tape} {pos v : Int} (h : t.get pos = .ok (t1, v)) :
    MemExt t t1 := by
  obtain ⟨hp, ht, hv⟩ := Tape.get_ok_inv h
  subst ht
  exact ⟨rfl, rfl, rfl, length_le_extendMem _ _, fun k => getD_extendMem _ _ _⟩

theorem Tape.get_stab {t t1 s : Tape} {pos v : Int} (h : t.get pos = .ok (t1, v))
    (he : MemExt t1 s) : s.get pos = .ok (s, v) := by
  obtain ⟨hp, ht, hv⟩ := Tape.get_ok_inv h
  have hlt : pos.toNat < t1.mem.length := by
    rw [ht]; exact lt_length_extendMem _ _
  have hlt2 : pos.toNat < s.mem.length := lt_of_lt_of_le hlt he.2.2.2.1
  rw [Tape.get_eq hp, extendMem_of_lt hlt2]
  have hval : s.mem.getD pos.toNat 0 = v := by
    rw [he.2.2.2.2, ht, hv]
    exact getD_extendMem _ _ _
  rw [hval]

theorem Tape.dstAddr_memExt {t t1 : Tape} {pos a : Int} {p : ParamMode}
    (h : t.dstAddr pos p = .ok (t1, a)) : MemExt t t1 := by
  cases p
  case Position => exact Tape.get_memExt h
  case Immediate => exact Tape.get_memExt h
  case Relative =>
    unfold Tape.dstAddr at h
    cases hg : t.get pos with
    | error f => rw [hg] at h; cases h
    | ok r =>
      obtain ⟨t2, v⟩ := r
      rw [hg] at h
      injection h with h'
      have : t2 = t1 := congrArg Prod.fst h'
      subst this
      exact Tape.get_memExt hg

theorem Tape.dstAddr_stab {t t1 s : Tape} {pos a : Int} {p : ParamMode}
    (h : t.dstAddr pos p = .ok (t1, a)) (he : MemExt t1 s) :
    s.dstAddr pos p = .ok (s, a) := by
  cases p
  case Position => exact Tape.get_stab h he
  case Immediate => exact Tape.get_stab h he
  case Relative =>
    cases hg : t.get pos with
    | error f =>
      simp only [Tape.dstAddr, hg] at h
      exact Except.noConfusion h
    | ok r =>
      obtain ⟨t2, v⟩ := r
      simp only [Tape.dstAddr, hg] at h
      injection h with h'
      have ht2 : t2 = t1 := congrArg Prod.fst h'
      have ha : t2.relbase + v = a := congrArg Prod.snd h'
      subst ht2
      simp only [Tape.dstAddr, Tape.get_stab hg he]
      rw [he.2.1, ha]

/-! ## Inversion and stability of one engine step -/

theorem Tape.fetchDecode_ok_inv {t t1 : Tape} {op : OpCode}
    (h : t.fetchDecode = .ok (t1, op)) :
    ∃ w, t.get t.pc = .ok (t1, w) ∧ OpCode.ofInt w = .ok op := by
  cases hg : t.get t.pc with
  | error f =>
    simp only [Tape.fetchDecode, hg] at h
    exact Except.noConfusion h
  | ok r =>
    obtain ⟨t2, w⟩ := r
    cases hd : OpCode.ofInt w with
    | error f =>
      simp only [Tape.fetchDecode, hg, hd] at h
      exact Except.noConfusion h
    | ok op2 =>
      simp only [Tape.fetchDecode, hg, hd] at h
      injection h with h'
      injection h' with h1 h2
      subst h1
      subst h2
      exact ⟨w, rfl, hd⟩

theorem Tape.fetchDecode_stab {t t1 s : Tape} {op : OpCode}
    (h : t.fetchDecode = .ok (t1, op)) (he : MemExt t1 s) :
    s.fetchDecode = .ok (s, op) := by
  obtain ⟨w, hg, hd⟩ := Tape.fetchDecode_ok_inv h
  have hpc : s.pc = t.pc := by rw [he.1, (Tape.get_memExt hg).1]
  have hgs : s.get s.pc = .ok (s, w) := by
    rw [hpc]; exact Tape.get_stab hg he
  simp only [Tape.fetchDecode, hgs, hd]

theorem Tape.exec_needsInput_inv {t t' : Tape} {op : OpCode} {dst : Int}
    (h : t.exec op = .ok (.needsInput dst t')) :
    ∃ p, op = .Input p ∧ t.dstAddr (t.pc + 1) p = .ok (t', dst) := by
  cases op <;> simp only [Tape.exec] at h
  case Input p =>
    cases hd : t.dstAddr (t.pc + 1) p with
    | error f =>
      rw [hd] at h
      exact Except.noConfusion h
    | ok r =>
      obtain ⟨t2, d⟩ := r
      rw [hd] at h
      injection h with h'
      injection h' with hd' ht'
      exact ⟨p, rfl, by rw [hd, hd', ht']⟩
  all_goals repeat' split at h
  all_goals
    first
    | exact Except.noConfusion h
    | (injection h with h'; exact InstrOut.noConfusion h')

theorem Tape.dstAddr_nonempty {t t1 : Tape} {pos a : Int} {p : ParamMode}
    (h : t.dstAddr pos p = .ok (t1, a)) : t1.mem ≠ [] := by
  have hmem : ∃ (u : Tape) (q v : Int), u.get q = .ok (t1, v) := by
    cases p
    case Position => exact ⟨t, pos, a, h⟩
    case Immediate => exact ⟨t, pos, a, h⟩
    case Relative =>
      cases hg : t.get pos with
      | error f =>
        simp only [Tape.dstAddr, hg] at h
        exact Except.noConfusion h
      | ok r =>
        obtain ⟨t2, v⟩ := r
        simp only [Tape.dstAddr, hg] at h
        injection h with h'
        have : t2 = t1 := congrArg Prod.fst h'
        subst this
        exact ⟨t, pos, v, hg⟩
  obtain ⟨u, q, v, hg⟩ := hmem
  obtain ⟨hq, ht1, -⟩ := Tape.get_ok_inv hg
  have : q.toNat < t1.mem.length := by
    rw [ht1]; exact lt_length_extendMem _ _
  intro hnil
  rw [hnil] at this
  simp at this

theorem Tape.step_poll_inv {t t' : Tape} {input : List Int}
    (h : t.step input = .ok (.poll t')) :
    input = [] ∧
      ∃ t1 op dst, t.fetchDecode = .ok (t1, op) ∧
        t1.exec op = .ok (.needsInput dst t') := by
  cases hfd : t.fetchDecode with
  | error f =>
    simp only [Tape.step, hfd] at h
    exact Except.noConfusion h
  | ok r =>
    obtain ⟨t1, op⟩ := r
    cases hex : t1.exec op with
    | error f =>
      simp only [Tape.step, hfd, hex] at h
      exact Except.noConfusion h
    | ok io =>
      cases io with
      | next t2 =>
        simp only [Tape.step, hfd, hex] at h
        injection h with h'
        exact StepOut.noConfusion h'
      | halted t2 =>
        simp only [Tape.step, hfd, hex] at h
        injection h with h'
        exact StepOut.noConfusion h'
      | needsInput dst t2 =>
        cases input with
        | nil =>
          simp only [Tape.step, hfd, hex] at h
          injection h with h'
          injection h' with h2
          subst h2
          exact ⟨rfl, t1, op, dst, rfl, hex⟩
        | cons v rest =>
          cases hs : t2.set dst v with
          | error f =>
            simp only [Tape.step, hfd, hex, hs] at h
            exact Except.noConfusion h
          | ok t3 =>
            simp only [Tape.step, hfd, hex, hs] at h
            injection h with h'
            exact StepOut.noConfusion h'

theorem Tape.step_eq_of_poll {t t' : Tape} {i : List Int}
    (h : t.step i = .ok (.poll t')) : ∀ j, t'.step j = t.step j := by
  obtain ⟨hnil, t1, op, dst, hfd, hex⟩ := Tape.step_poll_inv h
  obtain ⟨p, rfl, hdst⟩ := Tape.exec_needsInput_inv hex
  have he1 : MemExt t1 t' := Tape.dstAddr_memExt hdst
  have hfd' : t'.fetchDecode = .ok (t', .Input p) := Tape.fetchDecode_stab hfd he1
  have hdst' : t'.dstAddr (t'.pc + 1) p = .ok (t', dst) := by
    rw [he1.1]
    exact Tape.dstAddr_stab hdst (MemExt.refl t')
  have hex' : t'.exec (.Input p) = .ok (.needsInput dst t') := by
    simp only [Tape.exec, hdst']
  intro j
  simp only [Tape.step, hfd, hfd', hex, hex']

theorem Tape.step_cont_append {t t2 : Tape} {i i' j : List Int}
    (h : t.step i = .ok (.cont t2 i')) :
    t.step (i ++ j) = .ok (.cont t2 (i' ++ j)) := by
  cases hfd : t.fetchDecode with
  | error f =>
    simp only [Tape.step, hfd] at h
    exact Except.noConfusion h
  | ok r =>
    obtain ⟨t1, op⟩ := r
    cases hex : t1.exec op with
    | error f =>
      simp only [Tape.step, hfd, hex] at h
      exact Except.noConfusion h
    | ok io =>
      cases io with
      | next t3 =>
        simp only [Tape.step, hfd, hex] at h ⊢
        injection h with h'
        injection h' with ha hb
        rw [ha, hb]
      | halted t3 =>
        simp only [Tape.step, hfd, hex] at h
        injection h with h'
        exact StepOut.noConfusion h'
      | needsInput dst t3 =>
        cases i with
        | nil =>
          simp only [Tape.step, hfd, hex] at h
          injection h with h'
          exact StepOut.noConfusion h'
        | cons v rest =>
          cases hs : t3.set dst v with
          | error f =>
            simp only [Tape.step, hfd, hex, hs] at h
            exact Except.noConfusion h
          | ok t4 =>
            simp only [Tape.step, hfd, hex, hs, List.cons_append] at h ⊢
            injection h with h'
            injection h' with ha hb
            rw [ha, hb]

/-! ## Facts about the fueled run loop -/

theorem Tape.runLoop_mono {t : Tape} {input : List Int} {n : Nat}
    {r : RunStatus × Tape × List Int}
    (h : t.runLoop input n = .ok (some r)) :
    ∀ m, n ≤ m → t.runLoop input m = .ok (some r) := by
  induction n generalizing t input with
  | zero => simp [Tape.runLoop] at h
  | succ n ih =>
    intro m hm
    obtain ⟨m', rfl⟩ : ∃ m', m = m' + 1 := ⟨m - 1, by omega⟩
    cases hs : t.step input with
    | error f =>
      simp only [Tape.runLoop, hs] at h
      exact Except.noConfusion h
    | ok so =>
      cases so with
      | halt t2 =>
        simp only [Tape.runLoop, hs] at h ⊢
        exact h
      | poll t2 =>
        simp only [Tape.runLoop, hs] at h ⊢
        exact h
      | cont t2 i2 =>
        simp only [Tape.runLoop, hs] at h ⊢
        exact ih h m' (by omega)

theorem Tape.runLoop_poll_nonempty {t t' : Tape} {input rest : List Int} {n : Nat}
    (h : t.runLoop input n = .ok (some (.Poll, t', rest))) : t'.mem ≠ [] := by
  induction n generalizing t input with
  | zero => simp [Tape.runLoop] at h
  | succ n ih =>
    cases hs : t.step input with
    | error f =>
      simp only [Tape.runLoop, hs] at h
      exact Except.noConfusion h
    | ok so =>
      cases so with
      | halt t2 =>
        simp only [Tape.runLoop, hs] at h
        injection h with h1
        injection h1 with h2
        injection h2 with h3 h4
        exact RunStatus.noConfusion h3
      | poll t2 =>
        simp only [Tape.runLoop, hs] at h
        injection h with h1
        injection h1 with h2
        injection h2 with h3 h4
        injection h4 with h5 h6
        subst h5
        obtain ⟨-, t1, op, dst, hfd, hex⟩ := Tape.step_poll_inv hs
        obtain ⟨p, rfl, hdst⟩ := Tape.exec_needsInput_inv hex
        exact Tape.dstAddr_nonempty hdst
      | cont t2 i2 =>
        simp only [Tape.runLoop, hs] at h
        exact ih h

theorem Tape.runLoop_congr_first {t u : Tape} (hstep : ∀ j, u.step j = t.step j)
    (input : List Int) (n : Nat) :
    u.runLoop input (n + 1) = t.runLoop input (n + 1) := by
  simp only [Tape.runLoop, hstep input]

theorem Tape.runLoop_resume {t1 : Tape} {i2 : List Int} {m : Nat}
    {res : RunStatus × Tape × List Int}
    (h2 : t1.runLoop i2 m = .ok (some res)) :
    ∀ (n : Nat) (t : Tape) (i1 r1 : List Int),
      t.runLoop i1 n = .ok (some (.Poll, t1, r1)) →
      t.runLoop (i1 ++ i2) (n + m) = .ok (some res) := by
  intro n
  induction n with
  | zero =>
    intro t i1 r1 h1
    simp [Tape.runLoop] at h1
  | succ n ih =>
    intro t i1 r1 h1
    cases hs : t.step i1 with
    | error f =>
      simp only [Tape.runLoop, hs] at h1
      exact Except.noConfusion h1
    | ok so =>
      cases so with
      | halt t2 =>
        simp only [Tape.runLoop, hs] at h1
        injection h1 with ha
        injection ha with hb
        injection hb with hc hd
        exact RunStatus.noConfusion hc
      | poll t2 =>
        simp only [Tape.runLoop, hs] at h1
        injection h1 with ha
        injection ha with hb
        injection hb with hc hd
        injection hd with he hf
        subst he
        obtain ⟨hnil, -⟩ := Tape.step_poll_inv hs
        subst hnil
        obtain ⟨m', rfl⟩ : ∃ m', m = m' + 1 := by
          cases m with
          | zero => simp [Tape.runLoop] at h2
          | succ m' => exact ⟨m', rfl⟩
        have hst : ∀ j, t2.step j = t.step j := Tape.step_eq_of_poll hs
        have hcombined : t.runLoop i2 (m' + 1) = .ok (some res) := by
          rw [← Tape.runLoop_congr_first hst i2 m']
        
          exact h2
        have : t.runLoop ([] ++ i2) (m' + 1) = .ok (some res) := hcombined
        exact Tape.runLoop_mono this _ (by omega)
      | cont t2 i1' =>
        simp only [Tape.runLoop, hs] at h1
        have hstep2 : t.step (i1 ++ i2) = .ok (.cont t2 (i1' ++ i2)) :=
          Tape.step_cont_append hs
        have hrec := ih t2 i1' r1 h1
        rw [show n + 1 + m = (n + m) + 1 from by omega]
        simp only [Tape.runLoop, hstep2]
        exact hrec

/-! ## Decode helper lemmas -/

theorem ParamMode.ofInt_invalid {d : Int} (h : d ∉ ([0, 1, 2] : List Int)) :
    ParamMode.ofInt d = .error (.InvalidParamMode d) := by
  unfold ParamMode.ofInt
  split
  · exact absurd (by simp) h
  · exact absurd (by simp) h
  · exact absurd (by simp) h
  · rfl

theorem ParamMode.ofInt_cases (d : Int) :
    (∃ m, ParamMode.ofInt d = .ok m) ∨
      ParamMode.ofInt d = .error (.InvalidParamMode d) := by
  unfold ParamMode.ofInt
  split
  · exact .inl ⟨_, rfl⟩
  · exact .inl ⟨_, rfl⟩
  · exact .inl ⟨_, rfl⟩
  · exact .inr rfl

/-- Writing a cell and reading it back on the resulting tape yields
the written value, without any further change of state. -/
theorem Tape.set_get_same {t : Tape} {addr v : Int} (h : 0 ≤ addr) :
    ∃ t', t.set addr v = .ok t' ∧ t'.get addr = .ok (t', v) := by
  obtain ⟨mem, pc, rb, out⟩ := t
  refine ⟨⟨(extendMem mem addr.toNat).set addr.toNat v, pc, rb, out⟩, Tape.set_eq h, ?_⟩
  have hlt : addr.toNat < ((extendMem mem addr.toNat).set addr.toNat v).length := by
    rw [List.length_set]; exact lt_length_extendMem _ _
  rw [Tape.get_eq h]
  have hval : ((extendMem mem addr.toNat).set addr.toNat v).getD addr.toNat 0 = v := by
    rw [List.getD_eq_getElem?_getD,
      List.getElem?_set_self (lt_length_extendMem mem addr.toNat)]
    rfl
  rw [show extendMem ((extendMem mem addr.toNat).set addr.toNat v) addr.toNat
        = (extendMem mem addr.toNat).set addr.toNat v from extendMem_of_lt hlt, hval]

/-! ## Claim theorems -/

/-- C10: for an empty program (zero-length memory), every `run` call
returns Halted immediately, with the machine state returned unchanged
and the whole input list left unconsumed — no instruction is fetched,
decoded or executed and no output is produced. -/
theorem c10_empty_program_halts (t : Tape) (input : List Int) (fuel : Nat)
    (h : t.mem = []) :
    t.run input fuel = .ok (some (.Halt, t, input)) := by
  simp [Tape.run, Tape.empty, h]

theorem c10_empty_program_halts_witness :
    Tape.run ⟨[], 5, 7, [3]⟩ [1, 2] 9 = .ok (some (.Halt, ⟨[], 5, 7, [3]⟩, [1, 2])) :=
  c10_empty_program_halts ⟨[], 5, 7, [3]⟩ [1, 2] 9 rfl

/-- C7: for every non-negative address, `Tape.get` auto-extends the
store with zeros and returns the stored value under the default-0
view (so a never-written cell at or beyond the current length reads
as 0), and `Tape.set` auto-extends identically, stores the value, and
a subsequent `Tape.get` of the same address returns it; auto
extension is a success, never an error. -/
theorem c7_memory_auto_extension (t : Tape) (addr v : Int) (h : 0 ≤ addr) :
    (t.get addr =
      .ok ({ t with mem := extendMem t.mem addr.toNat }, t.mem.getD addr.toNat 0)) ∧
    ((t.mem.length : Int) ≤ addr →
      t.get addr = .ok ({ t with mem := extendMem t.mem addr.toNat }, 0)) ∧
    (∃ t', t.set addr v = .ok t' ∧ t'.get addr = .ok (t', v)) := by
  refine ⟨Tape.get_eq h, ?_, Tape.set_get_same h⟩
  intro hlen
  rw [Tape.get_eq h, List.getD_eq_default _ _ (by omega)]

theorem c7_memory_auto_extension_witness :
    ((⟨[7], 0, 0, []⟩ : Tape).get 3 =
      .ok ({ (⟨[7], 0, 0, []⟩ : Tape) with mem := extendMem [7] 3 },
        ([7] : List Int).getD 3 0)) ∧
    (((⟨[7], 0, 0, []⟩ : Tape).mem.length : Int) ≤ 3 →
      (⟨[7], 0, 0, []⟩ : Tape).get 3 =
        .ok ({ (⟨[7], 0, 0, []⟩ : Tape) with mem := extendMem [7] 3 }, 0)) ∧
    (∃ t', (⟨[7], 0, 0, []⟩ : Tape).set 3 42 = .ok t' ∧ t'.get 3 = .ok (t', 42)) :=
  c7_memory_auto_extension ⟨[7], 0, 0, []⟩ 3 42 (by decide)

/-- C9: a run that suspends with AwaitingInput leaves the engine able
to re-execute the same Input instruction: the input list was empty,
the program counter, relative base and output queue are unchanged,
the memory has only been zero-extended (every previously written cell
keeps its value), and a step of the suspended state with any input
behaves exactly as a step of the original state would. -/
theorem c9_poll_preserves_state (t u : Tape) (input : List Int)
    (h : t.step input = .ok (.poll u)) :
    input = [] ∧ u.pc = t.pc ∧ u.relbase = t.relbase ∧ u.output = t.output ∧
      t.mem.length ≤ u.mem.length ∧ (∀ k, u.mem.getD k 0 = t.mem.getD k 0) ∧
      (∀ j, u.step j = t.step j) := by
  obtain ⟨hnil, t1, op, dst, hfd, hex⟩ := Tape.step_poll_inv h
  obtain ⟨p, rfl, hdst⟩ := Tape.exec_needsInput_inv hex
  obtain ⟨w, hg, -⟩ := Tape.fetchDecode_ok_inv hfd
  have he : MemExt t u := (Tape.get_memExt hg).trans (Tape.dstAddr_memExt hdst)
  exact ⟨hnil, he.1, he.2.1, he.2.2.1, he.2.2.2.1, he.2.2.2.2,
    Tape.step_eq_of_poll h⟩

theorem c9_poll_preserves_state_witness :
    ([] : List Int) = [] ∧
    (⟨[3, 0], 0, 0, []⟩ : Tape).pc = (⟨[3, 0], 0, 0, []⟩ : Tape).pc ∧
    (⟨[3, 0], 0, 0, []⟩ : Tape).relbase = (⟨[3, 0], 0, 0, []⟩ : Tape).relbase ∧
    (⟨[3, 0], 0, 0, []⟩ : Tape).output = (⟨[3, 0], 0, 0, []⟩ : Tape).output ∧
    (⟨[3, 0], 0, 0, []⟩ : Tape).mem.length ≤ (⟨[3, 0], 0, 0, []⟩ : Tape).mem.length ∧
    (∀ k, (⟨[3, 0], 0, 0, []⟩ : Tape).mem.getD k 0 =
      (⟨[3, 0], 0, 0, []⟩ : Tape).mem.getD k 0) ∧
    (∀ j, (⟨[3, 0], 0, 0, []⟩ : Tape).step j = (⟨[3, 0], 0, 0, []⟩ : Tape).step j) :=
  c9_poll_preserves_state ⟨[3, 0], 0, 0, []⟩ ⟨[3, 0], 0, 0, []⟩ [] (by decide)

/-- C8: the decoder extracts and validates the third mode digit of
every instruction word, including words naming operations with fewer
than three parameters (Input, Output, AdjustRelBase, Eof and the two
jumps); a word naming such an operation whose third mode digit is not
0, 1 or 2 fails to decode with an invalid-parameter-mode fault. -/
theorem c8_third_mode_always_validated (w : Int)
    (_hop : w.tmod 100 ∈ ([3, 4, 5, 6, 9, 99] : List Int))
    (hmode : ((w.tdiv 10000).tmod 10) ∉ ([0, 1, 2] : List Int)) :
    OpCode.ofInt w = .error (.InvalidParamMode ((w.tdiv 10000).tmod 10)) := by
  simp only [OpCode.ofInt, ParamMode.ofInt_invalid hmode]

theorem c8_third_mode_always_validated_witness :
    OpCode.ofInt 31003 = .error (.InvalidParamMode 3) :=
  c8_third_mode_always_validated 31003 (by decide) (by decide)

/-- C1: parameter value and target-address semantics.  For a read
role parameter at cell `x` (all cells under the default-0 view of the
growable memory): Position mode yields `mem[mem[x]]`, Immediate mode
yields `mem[x]`, Relative mode yields `mem[relbase + mem[x]]`.  For a
write-role parameter the target address is `mem[x]` in Position and
Immediate modes and `relbase + mem[x]` in Relative mode, and it is
never dereferenced again: `Tape.dstAddr` succeeds with the memory
extended only up to `x` itself, whatever the value of the computed
address.  Every instruction dispatched by `Tape.exec` reads
parameters through `Tape.pget` and computes write targets through
`Tape.dstAddr`, so this covers every instruction the run loop
executes. -/
theorem c1_parameter_addressing (t : Tape) (x : Int) (hx : 0 ≤ x) :
    (t.pget x .Immediate =
        .ok ({ t with mem := extendMem t.mem x.toNat }, t.mem.getD x.toNat 0)) ∧
    (0 ≤ t.mem.getD x.toNat 0 →
      ∃ u, t.pget x .Position = .ok (u, t.mem.getD (t.mem.getD x.toNat 0).toNat 0)) ∧
    (0 ≤ t.relbase + t.mem.getD x.toNat 0 →
      ∃ u, t.pget x .Relative =
        .ok (u, t.mem.getD (t.relbase + t.mem.getD x.toNat 0).toNat 0)) ∧
    (t.dstAddr x .Position =
        .ok ({ t with mem := extendMem t.mem x.toNat }, t.mem.getD x.toNat 0)) ∧
    (t.dstAddr x .Immediate =
        .ok ({ t with mem := extendMem t.mem x.toNat }, t.mem.getD x.toNat 0)) ∧
    (t.dstAddr x .Relative =
        .ok ({ t with mem := extendMem t.mem x.toNat },
          t.relbase + t.mem.getD x.toNat 0)) := by
  refine ⟨?_, ?_, ?_, ?_, ?_, ?_⟩
  · simp only [Tape.pget]
    exact Tape.get_eq hx
  · intro hp
    have h2 := Tape.get_eq (t := { t with mem := extendMem t.mem x.toNat }) hp
    simp only [Tape.pget, Tape.get_eq hx, h2, getD_extendMem]
    exact ⟨_, rfl⟩
  · intro hp
    have h2 := Tape.get_eq (t := { t with mem := extendMem t.mem x.toNat }) hp
    simp only [Tape.pget, Tape.get_eq hx, h2, getD_extendMem]
    exact ⟨_, rfl⟩
  · simp only [Tape.dstAddr]
    exact Tape.get_eq hx
  · simp only [Tape.dstAddr]
    exact Tape.get_eq hx
  · simp only [Tape.dstAddr, Tape.get_eq hx]

theorem c1_parameter_addressing_witness :
    ((⟨[5, -3, 7], 0, 2, []⟩ : Tape).pget 0 .Immediate =
        .ok (⟨[5, -3, 7], 0, 2, []⟩, 5)) ∧
    (∃ u, (⟨[5, -3, 7], 0, 2, []⟩ : Tape).pget 0 .Position = .ok (u, 0)) ∧
    (∃ u, (⟨[5, -3, 7], 0, 2, []⟩ : Tape).pget 0 .Relative = .ok (u, 0)) ∧
    ((⟨[5, -3, 7], 0, 2, []⟩ : Tape).dstAddr 0 .Position =
        .ok (⟨[5, -3, 7], 0, 2, []⟩, 5)) ∧
    ((⟨[5, -3, 7], 0, 2, []⟩ : Tape).dstAddr 0 .Immediate =
        .ok (⟨[5, -3, 7], 0, 2, []⟩, 5)) ∧
    ((⟨[5, -3, 7], 0, 2, []⟩ : Tape).dstAddr 0 .Relative =
        .ok (⟨[5, -3, 7], 0, 2, []⟩, 7)) :=
  ⟨(c1_parameter_addressing ⟨[5, -3, 7], 0, 2, []⟩ 0 (by decide)).1,
    (c1_parameter_addressing ⟨[5, -3, 7], 0, 2, []⟩ 0 (by decide)).2.1 (by decide),
    (c1_parameter_addressing ⟨[5, -3, 7], 0, 2, []⟩ 0 (by decide)).2.2.1 (by decide),
    (c1_parameter_addressing ⟨[5, -3, 7], 0, 2, []⟩ 0 (by decide)).2.2.2.1,
    (c1_parameter_addressing ⟨[5, -3, 7], 0, 2, []⟩ 0 (by decide)).2.2.2.2.1,
    (c1_parameter_addressing ⟨[5, -3, 7], 0, 2, []⟩ 0 (by decide)).2.2.2.2.2⟩

/-- C3: every execution fault is surfaced as a distinguishable error
and aborts the run at once, and input exhaustion is not a fault.  In
order: a negative address makes both `Tape.get` and `Tape.set` fail
with an address fault; a word whose low two decimal digits are not
one of 1..9 or 99 never decodes successfully; a mode digit other than
0, 1, 2 fails with an invalid-parameter-mode fault; a faulting step
makes the run loop return that very error immediately; and a
successfully decoded Input instruction facing an empty input list
suspends with the non-fatal Poll (AwaitingInput) status instead of
erroring. -/
theorem c3_faults_surfaced :
    (∀ (t : Tape) (pos v : Int), pos < 0 →
      t.get pos = .error (.AddressFault pos) ∧
        t.set pos v = .error (.AddressFault pos)) ∧
    (∀ w : Int, w.tmod 100 ∉ ([1, 2, 3, 4, 5, 6, 7, 8, 9, 99] : List Int) →
      ∃ f, OpCode.ofInt w = .error f) ∧
    (∀ d : Int, d ∉ ([0, 1, 2] : List Int) →
      ParamMode.ofInt d = .error (.InvalidParamMode d)) ∧
    (∀ (t : Tape) (input : List Int) (f : Fault) (n : Nat),
      t.step input = .error f → t.runLoop input (n + 1) = .error f) ∧
    (∀ (t t1 : Tape) (w : Int) (p : ParamMode),
      t.get t.pc = .ok (t1, w) → OpCode.ofInt w = .ok (.Input p) →
      ∃ u, t.step [] = .ok (.poll u)) := by
  refine ⟨?_, ?_, ?_, ?_, ?_⟩
  · intro t pos v h
    exact ⟨Tape.get_neg h, Tape.set_neg h⟩
  · intro w hw
    rcases ParamMode.ofInt_cases ((w.tdiv 10000).tmod 10) with ⟨m3, h3⟩ | h3
    · rcases ParamMode.ofInt_cases ((w.tdiv 1000).tmod 10) with ⟨m2, h2⟩ | h2
      · rcases ParamMode.ofInt_cases ((w.tdiv 100).tmod 10) with ⟨m1, h1⟩ | h1
        · refine ⟨.InvalidOpCode w, ?_⟩
          simp only [OpCode.ofInt, h3, h2, h1]
          split
          case _ h => exact absurd (by rw [h]; decide) hw
          case _ h => exact absurd (by rw [h]; decide) hw
          case _ h => exact absurd (by rw [h]; decide) hw
          case _ h => exact absurd (by rw [h]; decide) hw
          case _ h => exact absurd (by rw [h]; decide) hw
          case _ h => exact absurd (by rw [h]; decide) hw
          case _ h => exact absurd (by rw [h]; decide) hw
          case _ h => exact absurd (by rw [h]; decide) hw
          case _ h => exact absurd (by rw [h]; decide) hw
          case _ h => exact absurd (by rw [h]; decide) hw
          case _ => rfl
        · exact ⟨.InvalidParamMode ((w.tdiv 100).tmod 10),
            by simp only [OpCode.ofInt, h3, h2, h1]⟩
      · exact ⟨.InvalidParamMode ((w.tdiv 1000).tmod 10),
          by simp only [OpCode.ofInt, h3, h2]⟩
    · exact ⟨.InvalidParamMode ((w.tdiv 10000).tmod 10),
        by simp only [OpCode.ofInt, h3]⟩
  · intro d hd
    exact ParamMode.ofInt_invalid hd
  · intro t input f n hstep
    simp only [Tape.runLoop, hstep]
  · intro t t1 w p hget hdec
    have hfd : t.fetchDecode = .ok (t1, .Input p) := by
      simp only [Tape.fetchDecode, hget, hdec]
    obtain ⟨hp, ht1, -⟩ := Tape.get_ok_inv hget
    have hpc1 : t1.pc = t.pc := by rw [ht1]
    have hpos : (0 : Int) ≤ t1.pc + 1 := by omega
    obtain ⟨u, a, hdst⟩ : ∃ u a, t1.dstAddr (t1.pc + 1) p = .ok (u, a) := by
      cases p
      case Position =>
        exact ⟨{ t1 with mem := extendMem t1.mem (t1.pc + 1).toNat },
          t1.mem.getD (t1.pc + 1).toNat 0,
          by simp only [Tape.dstAddr]; exact Tape.get_eq hpos⟩
      case Immediate =>
        exact ⟨{ t1 with mem := extendMem t1.mem (t1.pc + 1).toNat },
          t1.mem.getD (t1.pc + 1).toNat 0,
          by simp only [Tape.dstAddr]; exact Tape.get_eq hpos⟩
      case Relative =>
        exact ⟨{ t1 with mem := extendMem t1.mem (t1.pc + 1).toNat },
          ({ t1 with mem := extendMem t1.mem (t1.pc + 1).toNat } : Tape).relbase +
            t1.mem.getD (t1.pc + 1).toNat 0,
          by simp only [Tape.dstAddr, Tape.get_eq hpos]⟩
    have hex : t1.exec (.Input p) = .ok (.needsInput a u) := by
      simp only [Tape.exec, hdst]
    exact ⟨u, by simp only [Tape.step, hfd, hex]⟩

theorem c3_faults_surfaced_witness :
    ((⟨[99], 0, 0, []⟩ : Tape).get (-1) = .error (.AddressFault (-1)) ∧
      (⟨[99], 0, 0, []⟩ : Tape).set (-1) 5 = .error (.AddressFault (-1))) ∧
    (∃ f, OpCode.ofInt 0 = .error f) ∧
    (ParamMode.ofInt 3 = .error (.InvalidParamMode 3)) ∧
    ((⟨[-1, 0], 0, 0, []⟩ : Tape).runLoop [] 1 = .error (.InvalidOpCode (-1))) ∧
    (∃ u, (⟨[3, 0], 0, 0, []⟩ : Tape).step [] = .ok (.poll u)) :=
  ⟨c3_faults_surfaced.1 ⟨[99], 0, 0, []⟩ (-1) 5 (by decide),
    c3_faults_surfaced.2.1 0 (by decide),
    c3_faults_surfaced.2.2.1 3 (by decide),
    c3_faults_surfaced.2.2.2.1 ⟨[-1, 0], 0, 0, []⟩ [] (.InvalidOpCode (-1)) 0 (by decide),
    c3_faults_surfaced.2.2.2.2 ⟨[3, 0], 0, 0, []⟩ ⟨[3, 0], 0, 0, []⟩ 3 .Position
      (by decide) (by decide)⟩

/-- C2: suspend and resume equivalence.  If a `run` call on an engine
suspends with AwaitingInput after being fed one input value, and a
second `run` call on the suspended engine with the remaining value
settles (Halt or another suspension), then a single `run` call fed
both values settles identically: same status, same final machine
state (program counter, relative base, memory and output queue all
persist across the suspension), same unconsumed input. -/
theorem c2_suspend_resume (t t1 t2 : Tape) (a b : Int) (n m : Nat)
    (st : RunStatus) (r1 r2 : List Int)
    (h1 : t.run [a] n = .ok (some (.Poll, t1, r1)))
    (h2 : t1.run [b] m = .ok (some (st, t2, r2))) :
    t.run [a, b] (n + m) = .ok (some (st, t2, r2)) := by
  by_cases hemp : t.empty = true
  · simp only [Tape.run, hemp, if_true] at h1
    injection h1 with ha
    injection ha with hb
    injection hb with hc
    exact RunStatus.noConfusion hc
  · simp only [Tape.run, hemp, if_false] at h1 ⊢
    have hne : t1.mem ≠ [] := Tape.runLoop_poll_nonempty h1
    have hemp1 : ¬(t1.empty = true) := by
      simp only [Tape.empty, List.isEmpty_eq_true]
      exact hne
    simp only [Tape.run, hemp1, if_false] at h2
    have := Tape.runLoop_resume h2 n t [a] r1 h1
    simpa using this

theorem c2_suspend_resume_witness :
    Tape.run ⟨[3, 11, 3, 12, 1, 11, 12, 13, 4, 13, 99, 0, 0, 0], 0, 0, []⟩ [5, 7] 9 =
      .ok (some (.Halt,
        ⟨[3, 11, 3, 12, 1, 11, 12, 13, 4, 13, 99, 5, 7, 12], 10, 0, [12]⟩, [])) :=
  c2_suspend_resume
    ⟨[3, 11, 3, 12, 1, 11, 12, 13, 4, 13, 99, 0, 0, 0], 0, 0, []⟩
    ⟨[3, 11, 3, 12, 1, 11, 12, 13, 4, 13, 99, 5, 0, 0], 2, 0, []⟩
    ⟨[3, 11, 3, 12, 1, 11, 12, 13, 4, 13, 99, 5, 7, 12], 10, 0, [12]⟩
    5 7 3 6 .Halt [] [] (by decide) (by decide)

set_option maxRecDepth 100000 in
/-- C4: the relative-mode quine.  Running the program
109,1,204,-1,1001,100,1,100,1008,100,16,101,1006,101,0,99 to
completion with an empty input sequence halts and outputs exactly the
sixteen words of its own program text, in order. -/
theorem c4_quine_outputs_itself :
    testTape [109, 1, 204, -1, 1001, 100, 1, 100, 1008, 100, 16, 101, 1006, 101, 0, 99]
        [] 150 =
      .ok (some (.Halt,
        [109, 1, 204, -1, 1001, 100, 1, 100, 1008, 100, 16, 101, 1006, 101, 0, 99])) := by
  decide

/-- C5: large-number arithmetic.  The program
1102,34915192,34915192,7,4,7,99,0 halts with the single output
1219070632396864 (the full 16-digit product), and the program
104,1125899906842624,99 halts with the single output
1125899906842624, unchanged. -/
theorem c5_large_number_arithmetic :
    testTape [1102, 34915192, 34915192, 7, 4, 7, 99, 0] [] 100 =
        .ok (some (.Halt, [1219070632396864])) ∧
      testTape [104, 1125899906842624, 99] [] 100 =
        .ok (some (.Halt, [1125899906842624])) := by
  constructor
  · decide
  · decide

/-! ## Correspondence of the Add/Mul/Halt hand trace with the engine -/

theorem OpCode.ofInt_one : OpCode.ofInt 1 = .ok (.Add .Position .Position .Position) := rfl

theorem OpCode.ofInt_two : OpCode.ofInt 2 = .ok (.Mul .Position .Position .Position) := rfl

theorem OpCode.ofInt_ninetynine : OpCode.ofInt 99 = .ok .Eof := rfl

theorem Tape.get_mk_eq {mem : List Int} {pc rb : Int} {out : List Int} {pos : Int}
    (h : 0 ≤ pos) :
    Tape.get ⟨mem, pc, rb, out⟩ pos =
      .ok (⟨extendMem mem pos.toNat, pc, rb, out⟩, mem.getD pos.toNat 0) :=
  Tape.get_eq h

theorem Tape.set_mk_eq {mem : List Int} {pc rb : Int} {out : List Int} {pos v : Int}
    (h : 0 ≤ pos) :
    Tape.set ⟨mem, pc, rb, out⟩ pos v =
      .ok ⟨(extendMem mem pos.toNat).set pos.toNat v, pc, rb, out⟩ :=
  Tape.set_eq h

theorem handRead_ok_inv {mem : List Int} {a : Int} {p : List Int × Int}
    (h : handRead mem a = some p) :
    0 ≤ a ∧ p = (extendMem mem a.toNat, mem.getD a.toNat 0) := by
  unfold handRead at h
  split at h
  · exact Option.noConfusion h
  · injection h with h'
    exact ⟨by omega, h'.symm⟩

theorem handWrite_ok_inv {mem : List Int} {a v : Int} {p : List Int}
    (h : handWrite mem a v = some p) :
    0 ≤ a ∧ p = (extendMem mem a.toNat).set a.toNat v := by
  unfold handWrite at h
  split at h
  · exact Option.noConfusion h
  · injection h with h'
    exact ⟨by omega, h'.symm⟩

/-- One hand-executed step of the Add/Mul/Halt fragment is simulated
exactly by one step of the engine, for any relative base, output
queue and input list. -/
theorem handStep_sim {mem : List Int} {pc : Int} {r : HandRes}
    (h : handStep mem pc = some r) (rb : Int) (out input : List Int) :
    Tape.step ⟨mem, pc, rb, out⟩ input =
      match r with
      | .next M pcN => .ok (.cont ⟨M, pcN, rb, out⟩ input)
      | .halt M pcF => .ok (.halt ⟨M, pcF, rb, out⟩) := by
  cases h0 : handRead mem pc with
  | none => simp [handStep, h0] at h
  | some q0 =>
    obtain ⟨mem1, w⟩ := q0
    obtain ⟨hpc, hq0⟩ := handRead_ok_inv h0
    have hmem1 : mem1 = extendMem mem pc.toNat := congrArg Prod.fst hq0
    have hw : w = mem.getD pc.toNat 0 := congrArg Prod.snd hq0
    simp only [handStep, h0] at h
    by_cases hw1 : w = 1
    · rw [if_pos hw1] at h
      cases h1 : handRead mem1 (pc + 1) with
      | none => simp [h1] at h
      | some q1 =>
        obtain ⟨mem2, apos⟩ := q1
        obtain ⟨-, hq1⟩ := handRead_ok_inv h1
        have hmem2 : mem2 = extendMem mem1 (pc + 1).toNat := congrArg Prod.fst hq1
        have hapos : apos = mem1.getD (pc + 1).toNat 0 := congrArg Prod.snd hq1
        simp only [h1] at h
        cases h2 : handRead mem2 apos with
        | none => simp [h2] at h
        | some q2 =>
          obtain ⟨mem3, a⟩ := q2
          obtain ⟨h0apos, hq2⟩ := handRead_ok_inv h2
          have hmem3 : mem3 = extendMem mem2 apos.toNat := congrArg Prod.fst hq2
          have ha : a = mem2.getD apos.toNat 0 := congrArg Prod.snd hq2
          simp only [h2] at h
          cases h3 : handRead mem3 (pc + 2) with
          | none => simp [h3] at h
          | some q3 =>
            obtain ⟨mem4, bpos⟩ := q3
            obtain ⟨-, hq3⟩ := handRead_ok_inv h3
            have hmem4 : mem4 = extendMem mem3 (pc + 2).toNat := congrArg Prod.fst hq3
            have hbpos : bpos = mem3.getD (pc + 2).toNat 0 := congrArg Prod.snd hq3
            simp only [h3] at h
            cases h4 : handRead mem4 bpos with
            | none => simp [h4] at h
            | some q4 =>
              obtain ⟨mem5, b⟩ := q4
              obtain ⟨h0bpos, hq4⟩ := handRead_ok_inv h4
              have hmem5 : mem5 = extendMem mem4 bpos.toNat := congrArg Prod.fst hq4
              have hb : b = mem4.getD bpos.toNat 0 := congrArg Prod.snd hq4
              simp only [h4] at h
              cases h5 : handRead mem5 (pc + 3) with
              | none => simp [h5] at h
              | some q5 =>
                obtain ⟨mem6, cpos⟩ := q5
                obtain ⟨-, hq5⟩ := handRead_ok_inv h5
                have hmem6 : mem6 = extendMem mem5 (pc + 3).toNat := congrArg Prod.fst hq5
                have hcpos : cpos = mem5.getD (pc + 3).toNat 0 := congrArg Prod.snd hq5
                simp only [h5] at h
                cases h6 : handWrite mem6 cpos (a + b) with
                | none => simp [h6] at h
                | some M6 =>
                  obtain ⟨h0cpos, hM⟩ := handWrite_ok_inv h6
                  simp only [h6] at h
                  injection h with h'
                  subst h'
                  have hp1 : (0 : Int) ≤ pc + 1 := by omega
                  have hp2 : (0 : Int) ≤ pc + 2 := by omega
                  have hp3 : (0 : Int) ≤ pc + 3 := by omega
                  have hfd : Tape.fetchDecode ⟨mem, pc, rb, out⟩ =
                      .ok (⟨mem1, pc, rb, out⟩, .Add .Position .Position .Position) := by
                    simp only [Tape.fetchDecode, Tape.get_mk_eq hpc, ← hmem1, ← hw,
                      hw1, OpCode.ofInt_one]
                  have hpg1 : Tape.pget ⟨mem1, pc, rb, out⟩ (pc + 1) .Position =
                      .ok (⟨mem3, pc, rb, out⟩, a) := by
                    simp only [Tape.pget, Tape.get_mk_eq hp1, ← hmem2, ← hapos,
                      Tape.get_mk_eq h0apos, ← hmem3, ← ha]
                  have hpg2 : Tape.pget ⟨mem3, pc, rb, out⟩ (pc + 2) .Position =
                      .ok (⟨mem5, pc, rb, out⟩, b) := by
                    simp only [Tape.pget, Tape.get_mk_eq hp2, ← hmem4, ← hbpos,
                      Tape.get_mk_eq h0bpos, ← hmem5, ← hb]
                  have hdst : Tape.dstAddr ⟨mem5, pc, rb, out⟩ (pc + 3) .Position =
                      .ok (⟨mem6, pc, rb, out⟩, cpos) := by
                    simp only [Tape.dstAddr, Tape.get_mk_eq hp3, ← hmem6, ← hcpos]
                  have hset : Tape.set ⟨mem6, pc, rb, out⟩ cpos (a + b) =
                      .ok ⟨M6, pc, rb, out⟩ := by
                    simp only [Tape.set_mk_eq h0cpos, ← hM]
                  have hex : Tape.exec ⟨mem1, pc, rb, out⟩
                      (.Add .Position .Position .Position) =
                      .ok (.next ⟨M6, pc + 4, rb, out⟩) := by
                    simp only [Tape.exec, hpg1, hpg2, hdst, hset]
                  simp only [Tape.step, hfd, hex]
    · by_cases hw2 : w = 2
      · rw [if_neg hw1, if_pos hw2] at h
        cases h1 : handRead mem1 (pc + 1) with
        | none => simp [h1] at h
        | some q1 =>
          obtain ⟨mem2, apos⟩ := q1
          obtain ⟨-, hq1⟩ := handRead_ok_inv h1
          have hmem2 : mem2 = extendMem mem1 (pc + 1).toNat := congrArg Prod.fst hq1
          have hapos : apos = mem1.getD (pc + 1).toNat 0 := congrArg Prod.snd hq1
          simp only [h1] at h
          cases h2 : handRead mem2 apos with
          | none => simp [h2] at h
          | some q2 =>
            obtain ⟨mem3, a⟩ := q2
            obtain ⟨h0apos, hq2⟩ := handRead_ok_inv h2
            have hmem3 : mem3 = extendMem mem2 apos.toNat := congrArg Prod.fst hq2
            have ha : a = mem2.getD apos.toNat 0 := congrArg Prod.snd hq2
            simp only [h2] at h
            cases h3 : handRead mem3 (pc + 2) with
            | none => simp [h3] at h
            | some q3 =>
              obtain ⟨mem4, bpos⟩ := q3
              obtain ⟨-, hq3⟩ := handRead_ok_inv h3
              have hmem4 : mem4 = extendMem mem3 (pc + 2).toNat := congrArg Prod.fst hq3
              have hbpos : bpos = mem3.getD (pc + 2).toNat 0 := congrArg Prod.snd hq3
              simp only [h3] at h
              cases h4 : handRead mem4 bpos with
              | none => simp [h4] at h
              | some q4 =>
                obtain ⟨mem5, b⟩ := q4
                obtain ⟨h0bpos, hq4⟩ := handRead_ok_inv h4
                have hmem5 : mem5 = extendMem mem4 bpos.toNat := congrArg Prod.fst hq4
                have hb : b = mem4.getD bpos.toNat 0 := congrArg Prod.snd hq4
                simp only [h4] at h
                cases h5 : handRead mem5 (pc + 3) with
                | none => simp [h5] at h
                | some q5 =>
                  obtain ⟨mem6, cpos⟩ := q5
                  obtain ⟨-, hq5⟩ := handRead_ok_inv h5
                  have hmem6 : mem6 = extendMem mem5 (pc + 3).toNat := congrArg Prod.fst hq5
                  have hcpos : cpos = mem5.getD (pc + 3).toNat 0 := congrArg Prod.snd hq5
                  simp only [h5] at h
                  cases h6 : handWrite mem6 cpos (a * b) with
                  | none => simp [h6] at h
                  | some M6 =>
                    obtain ⟨h0cpos, hM⟩ := handWrite_ok_inv h6
                    simp only [h6] at h
                    injection h with h'
                    subst h'
                    have hp1 : (0 : Int) ≤ pc + 1 := by omega
                    have hp2 : (0 : Int) ≤ pc + 2 := by omega
                    have hp3 : (0 : Int) ≤ pc + 3 := by omega
                    have hfd : Tape.fetchDecode ⟨mem, pc, rb, out⟩ =
                        .ok (⟨mem1, pc, rb, out⟩, .Mul .Position .Position .Position) := by
                      simp only [Tape.fetchDecode, Tape.get_mk_eq hpc, ← hmem1, ← hw,
                        hw2, OpCode.ofInt_two]
                    have hpg1 : Tape.pget ⟨mem1, pc, rb, out⟩ (pc + 1) .Position =
                        .ok (⟨mem3, pc, rb, out⟩, a) := by
                      simp only [Tape.pget, Tape.get_mk_eq hp1, ← hmem2, ← hapos,
                        Tape.get_mk_eq h0apos, ← hmem3, ← ha]
                    have hpg2 : Tape.pget ⟨mem3, pc, rb, out⟩ (pc + 2) .Position =
                        .ok (⟨mem5, pc, rb, out⟩, b) := by
                      simp only [Tape.pget, Tape.get_mk_eq hp2, ← hmem4, ← hbpos,
                        Tape.get_mk_eq h0bpos, ← hmem5, ← hb]
                    have hdst : Tape.dstAddr ⟨mem5, pc, rb, out⟩ (pc + 3) .Position =
                        .ok (⟨mem6, pc, rb, out⟩, cpos) := by
                      simp only [Tape.dstAddr, Tape.get_mk_eq hp3, ← hmem6, ← hcpos]
                    have hset : Tape.set ⟨mem6, pc, rb, out⟩ cpos (a * b) =
                        .ok ⟨M6, pc, rb, out⟩ := by
                      simp only [Tape.set_mk_eq h0cpos, ← hM]
                    have hex : Tape.exec ⟨mem1, pc, rb, out⟩
                        (.Mul .Position .Position .Position) =
                        .ok (.next ⟨M6, pc + 4, rb, out⟩) := by
                      simp only [Tape.exec, hpg1, hpg2, hdst, hset]
                    simp only [Tape.step, hfd, hex]
      · by_cases hw99 : w = 99
        · rw [if_neg hw1, if_neg hw2, if_pos hw99] at h
          injection h with h'
          subst h'
          have hfd : Tape.fetchDecode ⟨mem, pc, rb, out⟩ =
              .ok (⟨mem1, pc, rb, out⟩, .Eof) := by
            simp only [Tape.fetchDecode, Tape.get_mk_eq hpc, ← hmem1, ← hw,
              hw99, OpCode.ofInt_ninetynine]
          have hex : Tape.exec ⟨mem1, pc, rb, out⟩ .Eof =
              .ok (.halted ⟨mem1, pc, rb, out⟩) := rfl
          simp only [Tape.step, hfd, hex]
        · rw [if_neg hw1, if_neg hw2, if_neg hw99] at h
          exact Option.noConfusion h

/-- A complete hand-computed Add/Mul/Halt trace is simulated exactly
by the engine loop: same final memory and program counter, with the
relative base, output queue and input list untouched. -/
theorem handRun_sim {fuel : Nat} :
    ∀ {mem : List Int} {pc : Int} {M : List Int} {pcF : Int},
      handRun mem pc fuel = some (M, pcF) →
      ∀ (rb : Int) (out input : List Int),
        Tape.runLoop ⟨mem, pc, rb, out⟩ input fuel =
          .ok (some (.Halt, ⟨M, pcF, rb, out⟩, input)) := by
  induction fuel with
  | zero =>
    intro mem pc M pcF h rb out input
    simp [handRun] at h
  | succ fuel ih =>
    intro mem pc M pcF h rb out input
    cases hs : handStep mem pc with
    | none => simp [handRun, hs] at h
    | some r =>
      have hstep := handStep_sim hs rb out input
      cases r with
      | halt m p =>
        simp only [handRun, hs] at h
        injection h with h'
        have hm : m = M := congrArg Prod.fst h'
        have hp : p = pcF := congrArg Prod.snd h'
        subst hm
        subst hp
        simp only [Tape.runLoop, hstep]
      | next m p =>
        simp only [handRun, hs] at h
        simp only [Tape.runLoop, hstep]
        exact ih h rb out input

/-- C6: programs consisting solely of Add, Mul and Halt instructions.
The first conjunct is the general statement: whenever the direct
hand-computed trace of the specification (`handRun`, modelled from
the spec) runs such a program to completion, the engine halts with
exactly that final memory.  The remaining conjuncts are the three
concrete traces: 1,0,0,0,99 ends with memory 2,0,0,0,99; 2,3,0,3,99
ends with 2,3,0,6,99; and 1,1,1,4,99,5,6,0,99 ends with
30,1,1,4,2,5,6,0,99. -/
theorem c6_add_mul_halt_traces :
    (∀ (mem M : List Int) (pc pcF rb : Int) (out input : List Int) (fuel : Nat),
      handRun mem pc fuel = some (M, pcF) →
      Tape.runLoop ⟨mem, pc, rb, out⟩ input fuel =
        .ok (some (.Halt, ⟨M, pcF, rb, out⟩, input))) ∧
    Tape.run ⟨[1, 0, 0, 0, 99], 0, 0, []⟩ [] 10 =
      .ok (some (.Halt, ⟨[2, 0, 0, 0, 99], 4, 0, []⟩, [])) ∧
    Tape.run ⟨[2, 3, 0, 3, 99], 0, 0, []⟩ [] 10 =
      .ok (some (.Halt, ⟨[2, 3, 0, 6, 99], 4, 0, []⟩, [])) ∧
    Tape.run ⟨[1, 1, 1, 4, 99, 5, 6, 0, 99], 0, 0, []⟩ [] 10 =
      .ok (some (.Halt, ⟨[30, 1, 1, 4, 2, 5, 6, 0, 99], 8, 0, []⟩, [])) :=
  ⟨fun _ _ _ _ rb out input _ h => handRun_sim h rb out input,
    by decide, by decide, by decide⟩

theorem c6_add_mul_halt_traces_witness :
    handRun [2, 3, 0, 3, 99] 0 10 = some ([2, 3, 0, 6, 99], 4) ∧
    Tape.runLoop ⟨[2, 3, 0, 3, 99], 0, 0, []⟩ [] 10 =
      .ok (some (.Halt, ⟨[2, 3, 0, 6, 99], 4, 0, []⟩, [])) :=
  ⟨by decide,
    c6_add_mul_halt_traces.1 [2, 3, 0, 3, 99] [2, 3, 0, 6, 99] 0 4 0 [] [] 10 (by decide)⟩
